import Mathlib

/-!
Verification of the zookeeper client (`zk_client.go`) of this repository.

The Go source is shallowly embedded: pure string manipulation
(`strings.Split`, `path.Join`, `path.Clean`, `strings.HasPrefix`) is
translated to executable Lean functions over `String`; the mutable
client state (connection pointer, exit channel, wait group, event
registry map) is threaded explicitly; calls into the external
go-zookeeper library (`conn.Create`, `conn.Children`, ...) are modelled
by oracle functions supplied as parameters, since that library is not
part of this repository.  Errors (`errors.New`, `zk.ErrNodeExists`,
`jerrors.Errorf`, `jerrors.Annotatef`) are modelled by the inductive
type `GoErr` below.
-/

namespace ZkClient

/-- Model of Go `strings.Split(s, sep)` for a one-character separator,
working on the character list: splitting the empty string yields one
empty field, exactly as in Go. -/
def splitChars (sep : Char) : List Char → List Char → List (List Char)
  | [], acc => [acc.reverse]
  | c :: cs, acc =>
    if c = sep then acc.reverse :: splitChars sep cs []
    else splitChars sep cs (c :: acc)

/-- Go `strings.Split(s, string(sep))`. -/
def goSplit (s : String) (sep : Char) : List String :=
  (splitChars sep s.data []).map String.mk

/-- Go `strings.HasPrefix(s, pre)` on character lists. -/
def listStarts : List Char → List Char → Bool
  | _, [] => true
  | [], _ :: _ => false
  | a :: as, b :: bs => a = b && listStarts as bs

/-- Go `strings.HasPrefix(s, pre)`. -/
def goStartsWith (s pre : String) : Bool :=
  listStarts s.data pre.data

/-- Join a list of strings with `/` separators (Go `strings.Join(l, "/")`). -/
def joinSep : List String → String
  | [] => ""
  | [s] => s
  | s :: rest => s ++ "/" ++ joinSep rest

/-- One step of the element processing of Go `path.Clean`: empty and `.`
components are dropped, `..` pops a component (or is kept when nothing
can be popped and the path is not rooted), anything else is pushed. -/
def cleanStep (rooted : Bool) (stack : List String) (c : String) : List String :=
  if c = "" ∨ c = "." then stack
  else if c = ".." then
    match stack with
    | [] => if rooted then [] else [".."]
    | top :: rest => if top = ".." then c :: top :: rest else rest
  else c :: stack

/-- Model of Go `path.Clean`: split on `/`, process the components with
`cleanStep`, and reassemble, restoring the leading `/` of a rooted path.
Semantically equivalent to the lazybuf implementation in Go's
`path/path.go`. -/
def goPathClean (p : String) : String :=
  if p = "" then "."
  else
    let rooted := goStartsWith p "/"
    let parts := ((goSplit p '/').foldl (cleanStep rooted) []).reverse
    if parts = [] then (if rooted then "/" else ".")
    else (if rooted then "/" ++ joinSep parts else joinSep parts)

/-- Model of Go `path.Join(elems...)`: skip leading empty elements, join
the rest with `/`, and `Clean` the result; all-empty input yields `""`. -/
def goPathJoin : List String → String
  | [] => ""
  | e :: rest => if e = "" then goPathJoin rest else goPathClean (joinSep (e :: rest))

/-- Model of the Go error values appearing in `zk_client.go`:
`ZK_CLIENT_CONN_NIL_ERR`, the go-zookeeper sentinel errors, the
`jerrors.Errorf` messages (as structured constructors carrying the path
that is formatted into the message), and `jerrors.Annotatef` wrapping
(carrying the format string of the annotation, the path formatted into
it, and the wrapped error). -/
inductive GoErr
  /-- Models `ZK_CLIENT_CONN_NIL_ERR = errors.New("zookeeperclient{conn} is nil")` -/
  | connNil
  /-- Models `zk.ErrNodeExists` -/
  | nodeExists
  /-- Models `zk.ErrNoNode` -/
  | noNode
  /-- any other error coming out of the go-zookeeper library -/
  | other (code : Nat)
  /-- Models `jerrors.Errorf("path{%s} has none children", path)` -/
  | noneChildren (path : String)
  /-- Models `jerrors.Errorf("zkClient{%s} App zk path{%s} does not exist.", name, path)` -/
  | notExist (path : String)
  /-- Models `jerrors.Annotatef(inner, fmt, path)` -/
  | annotated (fmt : String) (path : String) (inner : GoErr)
  deriving DecidableEq, Repr

/-- Root cause of a (possibly repeatedly annotated) error, as
`jerrors.Cause` would report it. -/
def GoErr.cause : GoErr → GoErr
  | .annotated _ _ inner => inner.cause
  | e => e

/-- The paths an error has been annotated with (`jerrors.Annotatef`
formats exactly one path into each annotation in this file). -/
def GoErr.annPaths : GoErr → List String
  | .annotated _ p inner => p :: inner.annPaths
  | _ => []

/-- Go `jerrors.Annotatef(err, fmt, path)` where `err` is an error
variable that may be nil: annotating nil returns nil. -/
def annotatef (err : Option GoErr) (fmt path : String) : Option GoErr :=
  err.map (GoErr.annotated fmt path)

end ZkClient

namespace ZkClient

/-- A channel handle (`*chan struct{}` in Go), identified by pointer
identity; `0` models the nil pointer, which `registerEvent` rejects. -/
abbrev Handle := Nat

/-- The watch registry `eventRegistry map[string][]*chan struct{}`,
modelled as an association list from path to the ordered handle list.
Go map iteration order is unspecified; the list order stands in for one
such order, and no theorem below depends on the order across distinct
paths. -/
abbrev Registry := List (String × List Handle)

/-- First-match lookup, the read `z.eventRegistry[zkPath]`. -/
def regLookup : Registry → String → Option (List Handle)
  | [], _ => none
  | (k, v) :: rest, p => if k = p then some v else regLookup rest p

/-- Map write `z.eventRegistry[zkPath] = a` (replace or add the entry). -/
def regSet : Registry → String → List Handle → Registry
  | [], p, v => [(p, v)]
  | (k, w) :: rest, p, v => if k = p then (p, v) :: rest else (k, w) :: regSet rest p v

/-- Map delete `delete(z.eventRegistry, zkPath)`. -/
def regErase : Registry → String → Registry
  | [], _ => []
  | (k, w) :: rest, p => if k = p then rest else (k, w) :: regErase rest p

/-- Model of `registerEvent(zkPath, event)`: no-op on empty path or nil handle,
otherwise append the handle to the path's entry (lines 164-175). -/
def registerEvent (reg : Registry) (zkPath : String) (event : Handle) : Registry :=
  if zkPath = "" ∨ event = 0 then reg
  else regSet reg zkPath ((regLookup reg zkPath).getD [] ++ [event])

/-- The node-changed branch of `handleZkEvent` (lines 136-148): iterate
over the registry and, for every path `p` with
`strings.HasPrefix(p, event.Path)`, send to each handle of `p` in list
order.  The returned list is the sequence of sends performed. -/
def nodeChangedNotified (reg : Registry) (eventPath : String) : List Handle :=
  reg.foldl (fun acc pr => if goStartsWith pr.1 eventPath then acc ++ pr.2 else acc) []

/-- go-zookeeper state codes used by `handleZkEvent`. -/
def stateDisconnected : Int := 0

/-- Code of `zk.StateConnecting` -/
def stateConnecting : Int := 1

/-- Code of `zk.StateConnected` -/
def stateConnected : Int := 100

/-- Code of `zk.StateHasSession` -/
def stateHasSession : Int := 101

/-- The session branch of `handleZkEvent` (lines 149-157), for an event
whose state is Connecting, Connected or HasSession: if
`state != StateConnecting || state != StateDisconnected` the handler
executes `continue` and sends nothing; otherwise it sends to every
handle registered at exactly the event's path when that list is
non-empty.  `prev` is the `state` variable recorded after the previous
event.  Returns the sequence of sends performed. -/
def sessionNotified (prev : Int) (reg : Registry) (eventPath : String) : List Handle :=
  if prev ≠ stateConnecting ∨ prev ≠ stateDisconnected then []
  else
    match regLookup reg eventPath with
    | some a => if 0 < a.length then a else []
    | none => []

/-- The in-place effect of `a = append(arr[:i], arr[i+1:]...)` on the
backing array `B` of a slice of length `n` (capacity untouched beyond
`n` is never read): positions `i .. n-2` receive `B[i+1 .. n-1]`,
every other position keeps its value, and the slice length drops to
`n-1`. -/
def goRemoveAt (B : List Handle) (i n : Nat) : List Handle :=
  B.take i ++ (B.drop (i + 1)).take (n - 1 - i) ++ B.drop (n - 1)

/-- The inner loop `for i, e := range a` of `unregisterEvent`
(lines 188-194).  The range clause captures the original slice header,
so the loop runs for the original length many iterations and reads
`e = B[i]` from the shared, in-place-mutated backing array; `a` is the
current slice `(B, n)`.  A match at index `i ≥ n` evaluates
`arr[i+1:]` with `i+1 > len(arr)` and panics (slice bounds out of
range), modelled by `none`. -/
def unregLoop (event : Handle) : Nat → List Handle → Nat → Nat → Option (List Handle × Nat)
  | 0, B, n, _ => some (B, n)
  | k + 1, B, n, i =>
    if B.getD i 0 = event then
      if i < n then unregLoop event k (goRemoveAt B i n) (n - 1) (i + 1)
      else none
    else unregLoop event k B n (i + 1)

/-- Model of `unregisterEvent(zkPath, event)` (lines 177-205): no-op on empty or
unknown path; otherwise run the removal loop and store the surviving
prefix back, deleting the entry when it became empty.  The second
component is `true` when the loop panicked (in which case the map is
unchanged, since the write happens after the loop). -/
def unregisterEvent (reg : Registry) (zkPath : String) (event : Handle) :
    Registry × Bool :=
  if zkPath = "" then (reg, false)
  else
    match regLookup reg zkPath with
    | none => (reg, false)
    | some a =>
      match unregLoop event a.length a a.length 0 with
      | none => (reg, true)
      | some (B, n) =>
        if n = 0 then (regErase reg zkPath, false)
        else (regSet reg zkPath (B.take n), false)

end ZkClient

section SanityChecks

example : ZkClient.goSplit "" '/' = [""] := by decide
example : ZkClient.goSplit "/a/b" '/' = ["", "a", "b"] := by decide
example : ZkClient.goPathJoin ["", "/", "a"] = "/a" := by decide
example : ZkClient.goPathJoin ["/a", "/", "b"] = "/a/b" := by decide
example : ZkClient.goStartsWith "/a/b/c" "/a" = true := by decide
example : ZkClient.goStartsWith "/a" "/a/b/c" = false := by decide
example :
    ZkClient.unregisterEvent [("/a", [1, 1, 2])] "/a" 1 = ([("/a", [1, 2])], false) := by
  decide
example :
    ZkClient.unregisterEvent [("/a", [1, 1])] "/a" 1 = ([("/a", [1, 1])], true) := by
  decide
example :
    ZkClient.unregisterEvent [("/a", [2, 1, 3])] "/a" 1 = ([("/a", [2, 3])], false) := by
  decide
example : ZkClient.unregisterEvent [("/a", [1])] "/a" 1 = ([], false) := by decide

end SanityChecks

namespace ZkClient

/-- The shutdown-relevant state of a `zookeeperClient`: whether `conn`
is non-nil, whether the `exit` channel has been closed, whether the
`handleZkEvent` goroutine is still running (the `wait` group counter is
1), whether some `Close()` call has passed its `z.stop()` and is at or
past `z.wait.Wait()`, how many times `conn.Close()` has been called on
the underlying connection, and whether a panic (close of closed
channel) occurred. -/
structure CSt where
  conn : Bool
  exitClosed : Bool
  bgRunning : Bool
  pending : Bool
  released : Nat
  panicked : Bool
  deriving DecidableEq, Repr

/-- Model of `close(z.exit)`: closing an already-closed channel panics. -/
def closeChan (s : CSt) : CSt :=
  if s.exitClosed then { s with panicked := true } else { s with exitClosed := true }

/-- Model of `stop()` (lines 211-220): the `select` returns `true` when the exit
channel is already closed, otherwise closes it and returns `false`. -/
def stopFn (s : CSt) : Bool × CSt :=
  if s.exitClosed then (true, s) else (false, closeChan s)

/-- The guarded release `if z.conn != nil { z.conn.Close(); z.conn = nil }`
performed under `z.Lock()`, counted in `released`. -/
def releaseConn (s : CSt) : CSt :=
  if s.conn then { s with conn := false, released := s.released + 1 } else s

/-- Atomic steps of the client's shutdown-relevant behavior.  The mutex
serializes the check-release-nil sequence, so each release site is one
atomic action. -/
inductive Act
  /-- a `Close()` call executing its `z.stop()` and starting to wait -/
  | closeBegin
  /-- a waiting `Close()` resuming after `z.wait.Wait()` (only possible
  once the background goroutine has exited) and releasing under the lock -/
  | closeFinish
  /-- the `handleZkEvent` goroutine receiving a `StateDisconnected` event
  (lines 126-135): `stop()`, guarded release under the lock, goroutine exit -/
  | bgDisconnected
  /-- the `handleZkEvent` goroutine observing the closed exit channel (line 120) and exiting -/
  | bgSeesExit
  deriving DecidableEq, Repr

/-- One interleaving step; an action whose enabling condition does not
hold (e.g. a `Close()` resuming before the goroutine exited, which
`sync.WaitGroup.Wait` forbids) leaves the state unchanged. -/
def stepA (s : CSt) : Act → CSt
  | .closeBegin => { (stopFn s).2 with pending := true }
  | .closeFinish =>
    if s.pending && !s.bgRunning then releaseConn s else s
  | .bgDisconnected =>
    if s.bgRunning then { releaseConn (stopFn s).2 with bgRunning := false } else s
  | .bgSeesExit =>
    if s.bgRunning && s.exitClosed then { s with bgRunning := false } else s

/-- State of a freshly connected client: live connection, open exit
channel, background goroutine running. -/
def initSt : CSt :=
  { conn := true, exitClosed := false, bgRunning := true
    pending := false, released := 0, panicked := false }

/-- Run a whole interleaving. -/
def runActs (acts : List Act) : CSt :=
  acts.foldl stepA initSt

end ZkClient

namespace ZkClient

/-- One `conn.Create` call as issued by `Create` (line 265): the path,
the content (always `[]byte("")`), the flags (always `0`, persistent)
and whether the ACL is `zk.WorldACL(zk.PermAll)` (always true). -/
structure CreateCall where
  path : String
  data : String
  flags : Nat
  aclWorldAll : Bool
  deriving DecidableEq, Repr

/-- The loop of `Create` (lines 259-276) over the remaining path
segments.  `store` is the oracle for `conn.Create` (`none` = success);
the oracle is consulted only when `conn` is non-nil, and every consulted
call is recorded in order.  `zk.ErrNodeExists` lets the loop continue;
any other error (including the conn-nil error) returns
`jerrors.Annotatef(err, "zk.Create(path:%s)", basePath)`. -/
def createLoop (store : String → Option GoErr) (conn : Bool) (basePath : String) :
    String → List String → List CreateCall → List CreateCall × Option GoErr
  | _, [], calls => (calls, none)
  | tmpPath, s :: rest, calls =>
    let tp := goPathJoin [tmpPath, "/", s]
    if conn then
      match store tp with
      | none => createLoop store conn basePath tp rest (calls ++ [⟨tp, "", 0, true⟩])
      | some e =>
        if e = .nodeExists then
          createLoop store conn basePath tp rest (calls ++ [⟨tp, "", 0, true⟩])
        else
          (calls ++ [⟨tp, "", 0, true⟩], some (.annotated "zk.Create(path:%s)" basePath e))
    else (calls, some (.annotated "zk.Create(path:%s)" basePath .connNil))

/-- Model of `Create(basePath)` (lines 252-279): split on `/`, drop the first
segment, and create each remaining segment's cumulative path in order.
Returns the sequence of `conn.Create` calls made and the final error. -/
def zkCreate (conn : Bool) (store : String → Option GoErr) (basePath : String) :
    List CreateCall × Option GoErr :=
  createLoop store conn basePath "" ((goSplit basePath '/').drop 1) []

/-- Model of `Delete(basePath)` (lines 283-296): `conn.Delete(basePath, -1)` when
connected, the conn-nil error otherwise, always passed through
`jerrors.Annotatef(err, "Delete(basePath:%s)", basePath)` (which keeps
nil nil). -/
def zkDelete (conn : Bool) (store : String → Option GoErr) (basePath : String) :
    Option GoErr :=
  annotatef (if conn then store basePath else some .connNil) "Delete(basePath:%s)" basePath

/-- Model of `RegisterTemp(basePath, node)` (lines 298-323): one ephemeral
`conn.Create` at `path.Join(basePath) + "/" + node`; any error (node
exists included) is fatal and annotated with `basePath`. -/
def registerTemp (conn : Bool) (store : String → Except GoErr String)
    (basePath node : String) : Except GoErr String :=
  let zkPath := goPathJoin [basePath] ++ "/" ++ node
  if conn then
    match store zkPath with
    | .ok tmpPath => .ok tmpPath
    | .error e => .error (.annotated "zk.Create(path:%s, zk.FlagEphemeral)" basePath e)
  else .error (.annotated "zk.Create(path:%s, zk.FlagEphemeral)" basePath .connNil)

/-- Model of `RegisterTempSeq(basePath, data)` (lines 325-348): one
ephemeral-sequential `conn.Create` at `path.Join(basePath) + "/"`; any
error is fatal and annotated with `basePath`. -/
def registerTempSeq (conn : Bool) (store : String → Except GoErr String)
    (basePath : String) : Except GoErr String :=
  if conn then
    match store (goPathJoin [basePath] ++ "/") with
    | .ok tmpPath => .ok tmpPath
    | .error e =>
      .error (.annotated "zk.Create(path:%s, zk.FlagEphemeral|zk.FlagSequence)" basePath e)
  else
    .error (.annotated "zk.Create(path:%s, zk.FlagEphemeral|zk.FlagSequence)" basePath .connNil)

/-- What a `conn.Children` / `conn.ChildrenW` call reports: the child
names, the stat pointer (nil-ness is all the code inspects), the watch
channel (for the W variant; an opaque token here) and the error. -/
structure ChildrenRes where
  children : List String
  stat : Option Unit
  watch : Option Nat
  err : Option GoErr
  deriving DecidableEq, Repr

/-- Model of `getChildren(path)` (lines 381-409): conn-nil and store errors are
annotated, except `zk.ErrNoNode` which becomes the
`"path{...} has none children"` error; a nil stat or an empty child
list produce the same error; otherwise the children are returned. -/
def getChildren (conn : Bool) (store : String → ChildrenRes) (path : String) :
    Except GoErr (List String) :=
  if conn then
    let r := store path
    match r.err with
    | some e =>
      if e = .noNode then .error (.noneChildren path)
      else .error (.annotated "zk.Children(path:%s)" path e)
    | none =>
      match r.stat with
      | none => .error (.noneChildren path)
      | some _ =>
        if r.children.length = 0 then .error (.noneChildren path)
        else .ok r.children
  else .error (.annotated "zk.Children(path:%s)" path .connNil)

/-- Model of `getChildrenW(path)` (lines 350-379): same decision structure as
`getChildren`, additionally returning the watch channel on success. -/
def getChildrenW (conn : Bool) (store : String → ChildrenRes) (path : String) :
    Except GoErr (List String × Option Nat) :=
  if conn then
    let r := store path
    match r.err with
    | some e =>
      if e = .noNode then .error (.noneChildren path)
      else .error (.annotated "zk.ChildrenW(path:%s)" path e)
    | none =>
      match r.stat with
      | none => .error (.noneChildren path)
      | some _ =>
        if r.children.length = 0 then .error (.noneChildren path)
        else .ok (r.children, r.watch)
  else .error (.annotated "zk.ChildrenW(path:%s)" path .connNil)

/-- What a `conn.ExistsW` call reports. -/
structure ExistsRes where
  exist : Bool
  watch : Option Nat
  err : Option GoErr
  deriving DecidableEq, Repr

/-- Model of `existW(zkPath)` (lines 411-434): errors (conn-nil included) are
annotated; a existing path yields its watch channel; a missing path
yields the "does not exist" error. -/
def existW (conn : Bool) (store : String → ExistsRes) (zkPath : String) :
    Except GoErr (Option Nat) :=
  if conn then
    let r := store zkPath
    match r.err with
    | some e => .error (.annotated "zk.ExistsW(path:%s)" zkPath e)
    | none =>
      if r.exist then .ok r.watch else .error (.notExist zkPath)
  else .error (.annotated "zk.ExistsW(path:%s)" zkPath .connNil)

/-- A store holding exactly the node set `s`, where creating an
existing path reports `zk.ErrNodeExists` and creating any other path
succeeds — the behavior of a healthy zookeeper ensemble for `Create`. -/
def setStore (s : List String) : String → Option GoErr :=
  fun p => if p ∈ s then some .nodeExists else none

end ZkClient

section SanityChecks2

example : ZkClient.zkCreate true (fun _ => none) "/a/b" =
    ([⟨"/a", "", 0, true⟩, ⟨"/a/b", "", 0, true⟩], none) := by decide
example : ZkClient.zkCreate false (fun _ => none) "" = ([], none) := by decide
example : (ZkClient.zkCreate true (ZkClient.setStore ["/a"]) "/a/b").2 = none := by decide

end SanityChecks2

namespace ZkClient

/-- The `conn.Create` calls `Create` issues for the given segment list,
starting from accumulated path `tmp`: one persistent, open-ACL,
empty-content call per segment, on the cumulative joined path, in
segment order. -/
def expectedCreates : String → List String → List CreateCall
  | _, [] => []
  | tmp, s :: rest =>
    let tp := goPathJoin [tmp, "/", s]
    ⟨tp, "", 0, true⟩ :: expectedCreates tp rest

/-- The cumulative sub-paths visited by `Create`'s loop, in order. -/
def segPaths : String → List String → List String
  | _, [] => []
  | tmp, s :: rest =>
    let tp := goPathJoin [tmp, "/", s]
    tp :: segPaths tp rest

/-- The registry-mutating operations of the client, for stating the
registry invariant: `registerEvent`, `unregisterEvent` (whose panic
leaves the map untouched) and the node-changed dispatch (which only
sends and never writes the map). -/
inductive RegOp
  | register (path : String) (h : Handle)
  | unregister (path : String) (h : Handle)
  | nodeChanged (path : String)
  deriving DecidableEq, Repr

/-- Effect of one registry operation on the registry. -/
def regStep (reg : Registry) : RegOp → Registry
  | .register p h => registerEvent reg p h
  | .unregister p h => (unregisterEvent reg p h).1
  | .nodeChanged _ => reg

/-- The invariant of claim C9: no path is mapped to an empty handle list. -/
def GoodReg (reg : Registry) : Prop :=
  ∀ pr ∈ reg, pr.2 ≠ []

/-- Inductive invariant for the shutdown model: a live connection has
never been released, the connection is released at most once, no panic
has occurred, and a waiter past `stop()` implies the signal fired. -/
def InvC (s : CSt) : Prop :=
  (s.conn = true → s.released = 0) ∧ s.released ≤ 1 ∧ s.panicked = false ∧
    (s.pending = true → s.exitClosed = true)

/-- The watch-fan-out example of the spec: two handles on `/a`, one on
`/a/b`. -/
def exReg : Registry := [("/a", [1, 2]), ("/a/b", [3])]

/-- A store on which creating the sub-path `/a` fails with an error that
is not `zk.ErrNodeExists`. -/
def failStore : String → Option GoErr :=
  fun p => if p = "/a" then some (.other 7) else none

end ZkClient

namespace ZkClient

/-- C10: `create("")` returns nil without any store call and without a
live connection: `strings.Split("", "/")` is `[""]`, dropping the first
element leaves no segments, so the creation loop body never runs. -/
theorem create_empty_path_is_noop (conn : Bool) (store : String → Option GoErr) :
    zkCreate conn store "" = ([], none) := rfl

/-- C4: `stop()` is idempotent: when the exit channel is still open the
call closes it (fires the signal) and returns `false`; on the resulting
state (and on any state with the signal fired) a further call returns
`true` and changes nothing — in particular it does not close the channel
again, so no panic is introduced. -/
theorem stop_idempotent (s : CSt) :
    (s.exitClosed = false → stopFn s = (false, { s with exitClosed := true })) ∧
    ((stopFn s).2).exitClosed = true ∧
    stopFn (stopFn s).2 = (true, (stopFn s).2) ∧
    ((stopFn s).2).panicked = s.panicked := by
  cases h : s.exitClosed <;> simp [stopFn, closeChan, h]

theorem stop_idempotent_witness :
    stopFn initSt = (false, { initSt with exitClosed := true }) ∧
    stopFn (stopFn initSt).2 = (true, (stopFn initSt).2) := by
  refine ⟨(stop_idempotent initSt).1 rfl, (stop_idempotent initSt).2.2.1⟩

/-- C2: the session-event branch of `handleZkEvent` never notifies any
handle: its guard `state != StateConnecting || state != StateDisconnected`
holds for every previous state (no value equals both 1 and 0), so the
`continue` is always taken and the notification block is unreachable —
in particular with previous state Connected and a watcher registered at
the event's path `/a`, nothing is sent. -/
theorem session_branch_never_notifies :
    (∀ (prev : Int) (reg : Registry) (eventPath : String),
      sessionNotified prev reg eventPath = []) ∧
    sessionNotified stateConnected [("/a", [5])] "/a" = [] := by
  constructor
  · intro prev reg eventPath
    unfold sessionNotified
    rw [if_pos]
    rcases eq_or_ne prev stateConnecting with h | h
    · subst h
      exact Or.inr (by decide)
    · exact Or.inl h
  · rfl

/-- C7: `getChildren` and `getChildrenW` return the same
`"path{...} has none children"` error when the store reports no-node,
when it returns a nil stat, and when the child list is empty; and a
successful return always carries a non-empty child list. -/
theorem children_error_collapsed (store : String → ChildrenRes) (p : String) :
    ((store p).err = some .noNode →
      getChildren true store p = .error (.noneChildren p) ∧
      getChildrenW true store p = .error (.noneChildren p)) ∧
    ((store p).err = none → (store p).stat = none →
      getChildren true store p = .error (.noneChildren p) ∧
      getChildrenW true store p = .error (.noneChildren p)) ∧
    ((store p).err = none → (store p).stat = some () → (store p).children = [] →
      getChildren true store p = .error (.noneChildren p) ∧
      getChildrenW true store p = .error (.noneChildren p)) ∧
    (∀ l, getChildren true store p = .ok l → l ≠ []) ∧
    (∀ l w, getChildrenW true store p = .ok (l, w) → l ≠ []) := by
  rcases hsp : store p with ⟨ch, st, w, er⟩
  refine ⟨fun h1 => ?_, fun h1 h2 => ?_, fun h1 h2 h3 => ?_, fun l hl => ?_, fun l w hlw => ?_⟩
  · simp only [hsp] at h1
    constructor <;> simp [getChildren, getChildrenW, hsp, h1]
  · simp only [hsp] at h1 h2
    constructor <;> simp [getChildren, getChildrenW, hsp, h1, h2]
  · simp only [hsp] at h1 h2 h3
    constructor <;> simp [getChildren, getChildrenW, hsp, h1, h2, h3]
  · simp only [getChildren, hsp, if_true] at hl
    rcases er with _ | e
    · rcases st with _ | u
      · simp at hl
      · by_cases hch : ch.length = 0
        · simp [hch] at hl
        · simp [hch] at hl
          intro hnil
          exact hch (by rw [hl, hnil]; rfl)
    · by_cases he : e = GoErr.noNode <;> simp [he] at hl
  · simp only [getChildrenW, hsp, if_true] at hlw
    rcases er with _ | e
    · rcases st with _ | u
      · simp at hlw
      · by_cases hch : ch.length = 0
        · simp [hch] at hlw
        · simp [hch] at hlw
          intro hnil
          exact hch (by rw [hlw.1, hnil]; rfl)
    · by_cases he : e = GoErr.noNode <;> simp [he] at hlw

theorem children_error_collapsed_witness :
    getChildren true (fun _ => ⟨[], none, none, some .noNode⟩) "/x" =
      .error (.noneChildren "/x") ∧
    getChildrenW true (fun _ => ⟨["c"], some (), none, none⟩) "/x" =
      .ok (["c"], none) :=
  ⟨((children_error_collapsed (fun _ => ⟨[], none, none, some .noNode⟩) "/x").1 rfl).1,
    rfl⟩

end ZkClient

namespace ZkClient

/-- C6 (amended): with a nil connection handle every node operation
returns, without consulting the store (the result below is the same for
every store oracle), an error wrapping the dedicated no-connection
error `ZK_CLIENT_CONN_NIL_ERR` in the operation's annotation — except
`Create` on a path with no segments after the first `/`-field (such as
the empty path), which returns nil. -/
theorem no_conn_fails_fast (dStore crStore : String → Option GoErr)
    (cStore : String → Except GoErr String) (chStore : String → ChildrenRes)
    (eStore : String → ExistsRes) (p bp node : String) :
    zkDelete false dStore p = some (.annotated "Delete(basePath:%s)" p .connNil) ∧
    registerTemp false cStore bp node =
      .error (.annotated "zk.Create(path:%s, zk.FlagEphemeral)" bp .connNil) ∧
    registerTempSeq false cStore bp =
      .error (.annotated "zk.Create(path:%s, zk.FlagEphemeral|zk.FlagSequence)" bp .connNil) ∧
    getChildren false chStore p = .error (.annotated "zk.Children(path:%s)" p .connNil) ∧
    getChildrenW false chStore p = .error (.annotated "zk.ChildrenW(path:%s)" p .connNil) ∧
    existW false eStore p = .error (.annotated "zk.ExistsW(path:%s)" p .connNil) ∧
    ((goSplit bp '/').drop 1 ≠ [] →
      zkCreate false crStore bp =
        ([], some (.annotated "zk.Create(path:%s)" bp .connNil))) := by
  refine ⟨rfl, rfl, rfl, rfl, rfl, rfl, fun hseg => ?_⟩
  unfold zkCreate
  rcases h : (goSplit bp '/').drop 1 with _ | ⟨s, rest⟩
  · exact absurd h hseg
  · simp [createLoop]

theorem no_conn_fails_fast_witness :
    zkDelete false (fun _ => none) "/x" =
      some (.annotated "Delete(basePath:%s)" "/x" .connNil) ∧
    zkCreate false (fun _ => none) "/a" =
      ([], some (.annotated "zk.Create(path:%s)" "/a" .connNil)) := by
  have h := no_conn_fails_fast (fun _ => none) (fun _ => none)
    (fun _ => .error .connNil) (fun _ => ⟨[], none, none, none⟩)
    (fun _ => ⟨false, none, none⟩) "/x" "/a" "n"
  exact ⟨h.1, h.2.2.2.2.2.2 (by decide)⟩

/-- C6 counterexample: `Create("")` with a nil connection returns nil,
not the no-connection error, because the segment loop never runs. -/
theorem no_conn_create_empty_counterexample :
    zkCreate false (fun _ => none) "" = ([], none) ∧
    (zkCreate false (fun _ => none) "").2 ≠
      some (.annotated "zk.Create(path:%s)" "" .connNil) := by
  exact ⟨rfl, by decide⟩

/-- Unfolding the dispatch fold to an arbitrary accumulator. -/
theorem nodeChanged_foldl_acc (eventPath : String) (reg : Registry) (acc : List Handle) :
    reg.foldl (fun a pr => if goStartsWith pr.1 eventPath then a ++ pr.2 else a) acc =
      acc ++ reg.foldl (fun a pr => if goStartsWith pr.1 eventPath then a ++ pr.2 else a) [] := by
  induction reg generalizing acc with
  | nil => simp
  | cons hd tl ih =>
    simp only [List.foldl_cons, List.nil_append]
    by_cases h : goStartsWith hd.1 eventPath
    · rw [if_pos h, if_pos h, ih (acc ++ hd.2), ih hd.2, List.append_assoc]
    · rw [if_neg h, if_neg h, ih acc]

/-- Membership in the dispatched sends: a handle is sent to exactly when
it belongs to some registered entry whose path extends the event path. -/
theorem mem_nodeChangedNotified (reg : Registry) (eventPath : String) (h : Handle) :
    h ∈ nodeChangedNotified reg eventPath ↔
      ∃ pr, pr ∈ reg ∧ goStartsWith pr.1 eventPath = true ∧ h ∈ pr.2 := by
  induction reg with
  | nil => simp [nodeChangedNotified]
  | cons hd tl ih =>
    unfold nodeChangedNotified at ih ⊢
    simp only [List.foldl_cons]
    by_cases hs : goStartsWith hd.1 eventPath
    · rw [if_pos hs, nodeChanged_foldl_acc, List.nil_append]
      simp only [List.mem_append, ih]
      constructor
      · rintro (hm | ⟨pr, hpr, hps, hmem⟩)
        · exact ⟨hd, List.mem_cons_self hd tl, hs, hm⟩
        · exact ⟨pr, List.mem_cons_of_mem hd hpr, hps, hmem⟩
      · rintro ⟨pr, hpr, hps, hmem⟩
        rcases List.mem_cons.mp hpr with hpr | hpr
        · exact Or.inl (hpr ▸ hmem)
        · exact Or.inr ⟨pr, hpr, hps, hmem⟩
    · rw [if_neg hs]
      rw [ih]
      constructor
      · rintro ⟨pr, hpr, hps, hmem⟩
        exact ⟨pr, List.mem_cons_of_mem hd hpr, hps, hmem⟩
      · rintro ⟨pr, hpr, hps, hmem⟩
        rcases List.mem_cons.mp hpr with hpr | hpr
        · exact absurd (hpr ▸ hps) (by simpa using hs)
        · exact ⟨pr, hpr, hps, hmem⟩

/-- C1 (amended): the node-changed dispatch notifies, for every
registered path `p` such that the **event's path is a prefix of `p`**
(`strings.HasPrefix(p, event.Path)` — not the claimed converse), every
handle registered under `p`, in registration order (the entry's list is
a sublist of the send sequence); with two handles on `/a` and one on
`/a/b`, an event at `/a` notifies all three, while an event at `/a/b/c`
notifies none. -/
theorem node_changed_fanout (reg : Registry) (eventPath p : String) (hs : List Handle)
    (hmem : (p, hs) ∈ reg) (hpre : goStartsWith p eventPath = true) :
    hs.Sublist (nodeChangedNotified reg eventPath) ∧
    nodeChangedNotified exReg "/a" = [1, 2, 3] ∧
    nodeChangedNotified exReg "/a/b/c" = [] := by
  refine ⟨?_, by decide, by decide⟩
  induction reg with
  | nil => cases hmem
  | cons hd tl ih =>
    unfold nodeChangedNotified
    simp only [List.foldl_cons]
    rcases List.mem_cons.mp hmem with heq | htl
    · subst heq
      dsimp only
      rw [if_pos hpre, nodeChanged_foldl_acc]
      simp only [List.nil_append]
      exact List.sublist_append_left hs _
    · by_cases hsd : goStartsWith hd.1 eventPath
      · rw [if_pos hsd, nodeChanged_foldl_acc, List.nil_append]
        exact (ih htl).trans (List.sublist_append_right hd.2 _)
      · rw [if_neg hsd]
        exact ih htl

theorem node_changed_fanout_witness :
    [1, 2].Sublist (nodeChangedNotified exReg "/a") ∧
    [3].Sublist (nodeChangedNotified exReg "/a") :=
  ⟨(node_changed_fanout exReg "/a" "/a" [1, 2] (by decide) (by decide)).1,
    (node_changed_fanout exReg "/a" "/a/b" [3] (by decide) (by decide)).1⟩

/-- C1 counterexample: with two handles registered on `/a` and one on
`/a/b`, a node-changed event at `/a/b/c` notifies no handle at all —
`strings.HasPrefix(p, event.Path)` is false for both registered paths —
contradicting the claim that all three are notified. -/
theorem node_changed_fanout_counterexample :
    nodeChangedNotified exReg "/a/b/c" = [] ∧
    ¬ (3 : Handle) ∈ nodeChangedNotified exReg "/a/b/c" := by
  exact ⟨by decide, by decide⟩

end ZkClient

namespace ZkClient

/-- Proof that `stop()` leaves every field unchanged except that the exit channel
ends up closed; in particular it never sets the panic flag (the `select`
guards the `close`). -/
theorem stopFn_snd_fields (s : CSt) :
    (stopFn s).2.conn = s.conn ∧ (stopFn s).2.exitClosed = true ∧
    (stopFn s).2.bgRunning = s.bgRunning ∧ (stopFn s).2.pending = s.pending ∧
    (stopFn s).2.released = s.released ∧ (stopFn s).2.panicked = s.panicked := by
  by_cases he : s.exitClosed <;> simp [stopFn, closeChan, he]

/-- The guarded release keeps the at-most-once bookkeeping intact. -/
theorem releaseConn_inv (s : CSt) (h1 : s.conn = true → s.released = 0)
    (h2 : s.released ≤ 1) :
    ((releaseConn s).conn = true → (releaseConn s).released = 0) ∧
      (releaseConn s).released ≤ 1 ∧ (releaseConn s).panicked = s.panicked ∧
      (releaseConn s).exitClosed = s.exitClosed ∧
      (releaseConn s).bgRunning = s.bgRunning ∧
      (releaseConn s).pending = s.pending := by
  by_cases hc : s.conn
  · have := h1 hc
    simp [releaseConn, hc, this]
  · simp [releaseConn, hc, h1, h2]

/-- Every interleaving step preserves the shutdown invariant. -/
theorem stepA_preserves_inv (s : CSt) (a : Act) (h : InvC s) : InvC (stepA s a) := by
  obtain ⟨h1, h2, h3, h4⟩ := h
  obtain ⟨f1, f2, f3, f4, f5, f6⟩ := stopFn_snd_fields s
  cases a with
  | closeBegin =>
    refine ⟨?_, ?_, ?_, ?_⟩ <;> simp [stepA, f1, f2, f5, f6, h3]
    · intro hc
      exact h1 (f1 ▸ hc)
    · exact f5 ▸ h2
  | closeFinish =>
    simp only [stepA]
    by_cases hg : s.pending && !s.bgRunning
    · rw [if_pos hg]
      obtain ⟨g1, g2, g3, g4, g5, g6⟩ := releaseConn_inv s h1 h2
      exact ⟨g1, g2, g3 ▸ h3, fun hp => g4 ▸ h4 (g6 ▸ hp)⟩
    · rw [if_neg hg]
      exact ⟨h1, h2, h3, h4⟩
  | bgDisconnected =>
    simp only [stepA]
    by_cases hb : s.bgRunning
    · rw [if_pos hb]
      obtain ⟨g1, g2, g3, g4, g5, g6⟩ :=
        releaseConn_inv (stopFn s).2 (fun hc => f5 ▸ h1 (f1 ▸ hc)) (f5 ▸ h2)
      refine ⟨?_, ?_, ?_, ?_⟩ <;> simp
      · intro hc
        exact g1 hc
      · exact g2
      · exact g3 ▸ f6 ▸ h3
      · intro hp
        exact g4 ▸ f2
    · rw [if_neg hb]
      exact ⟨h1, h2, h3, h4⟩
  | bgSeesExit =>
    simp only [stepA]
    by_cases hg : s.bgRunning && s.exitClosed
    · rw [if_pos hg]
      exact ⟨h1, h2, h3, h4⟩
    · rw [if_neg hg]
      exact ⟨h1, h2, h3, h4⟩

/-- The invariant holds along every interleaving from the initial state. -/
theorem runActs_inv (acts : List Act) : InvC (runActs acts) := by
  unfold runActs
  have hbase : InvC initSt := by
    refine ⟨fun _ => rfl, by decide, rfl, fun hp => ?_⟩
    simp [initSt] at hp
  generalize initSt = s at hbase ⊢
  induction acts generalizing s with
  | nil => exact hbase
  | cons a rest ih =>
    exact ih (stepA s a) (stepA_preserves_inv s a hbase)

/-- C3: along every interleaving of `Close()` calls (possibly repeated)
and the background task's handling of a `Disconnected` event, the
underlying connection is released at most once, no close-of-closed
channel panic occurs, and a `Close()` that actually releases the
connection does so only after the exit signal fired and the background
task exited. -/
theorem close_releases_at_most_once (acts : List Act) :
    (runActs acts).released ≤ 1 ∧ (runActs acts).panicked = false ∧
    ((stepA (runActs acts) Act.closeFinish).released ≠ (runActs acts).released →
      (runActs acts).exitClosed = true ∧ (runActs acts).bgRunning = false) := by
  obtain ⟨h1, h2, h3, h4⟩ := runActs_inv acts
  refine ⟨h2, h3, fun hrel => ?_⟩
  by_cases hg : (runActs acts).pending && !(runActs acts).bgRunning
  · obtain ⟨hp, hb⟩ := Bool.and_eq_true_iff.mp hg
    exact ⟨h4 hp, by simpa using hb⟩
  · exact absurd (by simp [stepA, hg]) hrel

theorem close_releases_at_most_once_witness :
    (runActs [Act.closeBegin, Act.bgSeesExit]).released ≤ 1 ∧
    ((runActs [Act.closeBegin, Act.bgSeesExit]).exitClosed = true ∧
      (runActs [Act.closeBegin, Act.bgSeesExit]).bgRunning = false) :=
  ⟨(close_releases_at_most_once [Act.closeBegin, Act.bgSeesExit]).1,
    (close_releases_at_most_once [Act.closeBegin, Act.bgSeesExit]).2.2 (by decide)⟩

end ZkClient

namespace ZkClient

/-- On a store that only ever answers success or `zk.ErrNodeExists`,
the creation loop consults the store once per segment, on the cumulative
paths in order, and returns nil. -/
theorem createLoop_benign (store : String → Option GoErr) (bp : String)
    (hb : ∀ q, store q = none ∨ store q = some .nodeExists) :
    ∀ (segs : List String) (tmp : String) (calls : List CreateCall),
      createLoop store true bp tmp segs calls =
        (calls ++ expectedCreates tmp segs, none) := by
  intro segs
  induction segs with
  | nil => intro tmp calls; simp [createLoop, expectedCreates]
  | cons s rest ih =>
    intro tmp calls
    unfold createLoop expectedCreates
    rcases hb (goPathJoin [tmp, "/", s]) with h | h <;> simp [h, ih]

/-- Every `conn.Create` call of `Create` carries empty content, flags 0
(a persistent node) and the world/all-permissions ACL. -/
theorem expectedCreates_fields :
    ∀ (segs : List String) (tmp : String), ∀ c ∈ expectedCreates tmp segs,
      c.data = "" ∧ c.flags = 0 ∧ c.aclWorldAll = true := by
  intro segs
  induction segs with
  | nil => intro tmp c hc; simp [expectedCreates] at hc
  | cons s rest ih =>
    intro tmp c hc
    unfold expectedCreates at hc
    rcases List.mem_cons.mp hc with h | h
    · subst h; exact ⟨rfl, rfl, rfl⟩
    · exact ih _ c h

/-- The call paths of `Create` are the cumulative sub-paths, in order
from the first segment to the leaf. -/
theorem expectedCreates_map_path :
    ∀ (segs : List String) (tmp : String),
      (expectedCreates tmp segs).map CreateCall.path = segPaths tmp segs := by
  intro segs
  induction segs with
  | nil => intro tmp; rfl
  | cons s rest ih => intro tmp; simp [expectedCreates, segPaths, ih]

/-- Whatever the store does, a failing `Create` returns the store's
non-`NodeExists` error wrapped in exactly one annotation, which carries
the requested path `bp` — the failing sub-path is not part of the
returned error. -/
theorem createLoop_error_annotated (store : String → Option GoErr) (bp : String) :
    ∀ (segs : List String) (tmp : String) (calls cs : List CreateCall) (e : GoErr),
      createLoop store true bp tmp segs calls = (cs, some e) →
      ∃ inner, e = .annotated "zk.Create(path:%s)" bp inner ∧ inner ≠ .nodeExists := by
  intro segs
  induction segs with
  | nil =>
    intro tmp calls cs e hrun
    simp [createLoop] at hrun
  | cons s rest ih =>
    intro tmp calls cs e hrun
    unfold createLoop at hrun
    simp only [if_true] at hrun
    rcases hst : store (goPathJoin [tmp, "/", s]) with _ | e'
    · simp only [hst] at hrun
      exact ih _ _ cs e hrun
    · simp only [hst] at hrun
      by_cases he' : e' = GoErr.nodeExists
      · simp only [if_pos he'] at hrun
        exact ih _ _ cs e hrun
      · simp only [if_neg he'] at hrun
        have h2 := congrArg Prod.snd hrun
        simp only [Option.some.injEq] at h2
        exact ⟨e', h2.symm, he'⟩

end ZkClient

namespace ZkClient

/-- C5 (amended): with a live connection, `create(path)` splits the path
on `/`, drops the leading field, and issues one `conn.Create` per
remaining segment on the cumulative sub-paths, in order from the first
segment to the leaf, each as a persistent node (flags 0) with world
all-permissions ACL and empty content; on a store answering only
success or `zk.ErrNodeExists` every segment is visited and the call
returns nil — in particular, against a node-set store, `create(p)`
returns nil every time it is called, so calling it twice returns no
error both times; any non-`NodeExists` failure aborts with that error
wrapped in one annotation carrying the requested path (the failing
sub-path is only logged, not part of the returned error). -/
theorem create_segmentwise (store : String → Option GoErr) (basePath : String)
    (hb : ∀ q, store q = none ∨ store q = some .nodeExists) :
    zkCreate true store basePath =
      (expectedCreates "" ((goSplit basePath '/').drop 1), none) ∧
    (∀ c ∈ (zkCreate true store basePath).1,
      c.data = "" ∧ c.flags = 0 ∧ c.aclWorldAll = true) ∧
    (zkCreate true store basePath).1.map CreateCall.path =
      segPaths "" ((goSplit basePath '/').drop 1) ∧
    (∀ (nodes : List String) (p : String), (zkCreate true (setStore nodes) p).2 = none) ∧
    (∀ (store2 : String → Option GoErr) (p : String) (cs : List CreateCall) (e : GoErr),
      zkCreate true store2 p = (cs, some e) →
      ∃ inner, e = .annotated "zk.Create(path:%s)" p inner ∧ inner ≠ .nodeExists) := by
  have hmain := createLoop_benign store basePath hb ((goSplit basePath '/').drop 1) "" []
  refine ⟨by simpa [zkCreate] using hmain, ?_, ?_, ?_, ?_⟩
  · intro c hc
    rw [zkCreate, hmain] at hc
    exact expectedCreates_fields _ _ c (by simpa using hc)
  · rw [zkCreate, hmain]
    simpa using expectedCreates_map_path ((goSplit basePath '/').drop 1) ""
  · intro nodes p
    have hb2 : ∀ q, setStore nodes q = none ∨ setStore nodes q = some .nodeExists := by
      intro q
      unfold setStore
      by_cases hq : q ∈ nodes <;> simp [hq]
    rw [zkCreate, createLoop_benign (setStore nodes) p hb2]
  · intro store2 p cs e hrun
    exact createLoop_error_annotated store2 p _ _ _ cs e hrun

theorem create_segmentwise_witness :
    zkCreate true (fun _ => none) "/a/b" =
      ([⟨"/a", "", 0, true⟩, ⟨"/a/b", "", 0, true⟩], none) ∧
    (zkCreate true (setStore ["/a", "/a/b"]) "/a/b").2 = none := by
  have h := create_segmentwise (fun _ => none) "/a/b" (fun _ => Or.inl rfl)
  exact ⟨by rw [h.1]; decide, h.2.2.2.1 ["/a", "/a/b"] "/a/b"⟩

/-- C5 counterexample: when creating `/a/b` fails at the sub-path `/a`
with a non-`NodeExists` store error, the returned error is annotated
with the requested path `/a/b` only — the failing sub-path `/a` does
not appear in any annotation of the returned error, contradicting the
claim that the error is annotated with the failing sub-path. -/
theorem create_error_lacks_subpath_counterexample :
    zkCreate true failStore "/a/b" =
      ([⟨"/a", "", 0, true⟩],
        some (.annotated "zk.Create(path:%s)" "/a/b" (.other 7))) ∧
    GoErr.annPaths (.annotated "zk.Create(path:%s)" "/a/b" (.other 7)) = ["/a/b"] ∧
    "/a" ∉ GoErr.annPaths (.annotated "zk.Create(path:%s)" "/a/b" (.other 7)) := by
  exact ⟨by decide, by decide, by decide⟩

end ZkClient

namespace ZkClient

/-- Writing a key makes it readable. -/
theorem regLookup_regSet_self (reg : Registry) (p : String) (v : List Handle) :
    regLookup (regSet reg p v) p = some v := by
  induction reg with
  | nil => simp [regSet, regLookup]
  | cons hd tl ih =>
    obtain ⟨k, w⟩ := hd
    by_cases hk : k = p <;> simp [regSet, regLookup, hk, ih]

/-- Writing one key leaves the others unchanged. -/
theorem regLookup_regSet_ne (reg : Registry) (p q : String) (v : List Handle)
    (h : q ≠ p) : regLookup (regSet reg p v) q = regLookup reg q := by
  induction reg with
  | nil => simp [regSet, regLookup, Ne.symm h]
  | cons hd tl ih =>
    obtain ⟨k, w⟩ := hd
    by_cases hk : k = p
    · subst hk
      have hkq : ¬ k = q := fun he => h he.symm
      simp [regSet, regLookup, hkq]
    · by_cases hq : k = q
      · subst hq
        simp [regSet, regLookup, hk]
      · simp [regSet, regLookup, hk, hq, ih]

/-- A key absent from the key list cannot be looked up. -/
theorem regLookup_none_of_not_mem_keys (reg : Registry) (p : String)
    (h : p ∉ reg.map Prod.fst) : regLookup reg p = none := by
  induction reg with
  | nil => rfl
  | cons hd tl ih =>
    obtain ⟨k, w⟩ := hd
    simp only [List.map_cons, List.mem_cons] at h
    push_neg at h
    simp [regLookup, Ne.symm h.1, ih h.2]

/-- Deleting a key makes it unreadable, when the keys are distinct (as
they are in a Go map). -/
theorem regLookup_regErase_self (reg : Registry) (p : String)
    (hnd : (reg.map Prod.fst).Nodup) : regLookup (regErase reg p) p = none := by
  induction reg with
  | nil => rfl
  | cons hd tl ih =>
    obtain ⟨k, w⟩ := hd
    simp only [List.map_cons, List.nodup_cons] at hnd
    by_cases hk : k = p
    · subst hk
      simp only [regErase, if_pos rfl]
      exact regLookup_none_of_not_mem_keys tl k hnd.1
    · simp [regErase, regLookup, hk, ih hnd.2]

/-- Deleting one key leaves the others unchanged. -/
theorem regLookup_regErase_ne (reg : Registry) (p q : String) (h : q ≠ p) :
    regLookup (regErase reg p) q = regLookup reg q := by
  induction reg with
  | nil => rfl
  | cons hd tl ih =>
    obtain ⟨k, w⟩ := hd
    by_cases hk : k = p
    · subst hk
      have hkq : ¬ k = q := fun he => h he.symm
      simp [regErase, regLookup, hkq]
    · by_cases hq : k = q
      · subst hq
        simp [regErase, regLookup, hk]
      · simp [regErase, regLookup, hk, hq, ih]

/-- An entry of the written registry is the written entry or an old one. -/
theorem mem_regSet (reg : Registry) (p : String) (v : List Handle)
    (pr : String × List Handle) (h : pr ∈ regSet reg p v) : pr = (p, v) ∨ pr ∈ reg := by
  induction reg with
  | nil => simpa [regSet] using h
  | cons hd tl ih =>
    obtain ⟨k, w⟩ := hd
    by_cases hk : k = p
    · subst hk
      rcases List.mem_cons.mp (by simpa [regSet] using h) with h1 | h1
      · exact Or.inl h1
      · exact Or.inr (List.mem_cons_of_mem _ h1)
    · rcases List.mem_cons.mp (by simpa [regSet, hk] using h) with h1 | h1
      · exact Or.inr (h1 ▸ List.mem_cons_self _ _)
      · rcases ih h1 with h2 | h2
        · exact Or.inl h2
        · exact Or.inr (List.mem_cons_of_mem _ h2)

/-- With distinct keys, the only entry of the written registry carrying
the written key is the written entry. -/
theorem mem_regSet_key (reg : Registry) (p : String) (v : List Handle)
    (pr : String × List Handle) (hnd : (reg.map Prod.fst).Nodup)
    (h : pr ∈ regSet reg p v) (hp : pr.1 = p) : pr = (p, v) := by
  induction reg with
  | nil => simpa [regSet] using h
  | cons hd tl ih =>
    obtain ⟨k, w⟩ := hd
    simp only [List.map_cons, List.nodup_cons] at hnd
    by_cases hk : k = p
    · subst hk
      rcases List.mem_cons.mp (by simpa [regSet] using h) with h1 | h1
      · exact h1
      · exact absurd (hp ▸ List.mem_map_of_mem Prod.fst h1) hnd.1
    · rcases List.mem_cons.mp (by simpa [regSet, hk] using h) with h1 | h1
      · rw [h1] at hp
        exact absurd hp hk
      · exact ih hnd.2 h1

/-- Entries of the erased registry are old entries. -/
theorem mem_regErase (reg : Registry) (p : String) (pr : String × List Handle)
    (h : pr ∈ regErase reg p) : pr ∈ reg := by
  induction reg with
  | nil => simp [regErase] at h
  | cons hd tl ih =>
    obtain ⟨k, w⟩ := hd
    by_cases hk : k = p
    · subst hk
      exact List.mem_cons_of_mem _ (by simpa [regErase] using h)
    · rcases List.mem_cons.mp (by simpa [regErase, hk] using h) with h1 | h1
      · exact h1 ▸ List.mem_cons_self _ _
      · exact List.mem_cons_of_mem _ (ih h1)

/-- With distinct keys, no entry of the erased registry carries the
erased key. -/
theorem mem_regErase_key (reg : Registry) (p : String) (pr : String × List Handle)
    (hnd : (reg.map Prod.fst).Nodup) (h : pr ∈ regErase reg p) : pr.1 ≠ p := by
  induction reg with
  | nil => simp [regErase] at h
  | cons hd tl ih =>
    obtain ⟨k, w⟩ := hd
    simp only [List.map_cons, List.nodup_cons] at hnd
    by_cases hk : k = p
    · subst hk
      intro hp
      exact hnd.1 (hp ▸ List.mem_map_of_mem Prod.fst (by simpa [regErase] using h))
    · rcases List.mem_cons.mp (by simpa [regErase, hk] using h) with h1 | h1
      · intro hp
        rw [h1] at hp
        exact hk hp
      · exact ih hnd.2 h1

end ZkClient

namespace ZkClient

/-- If none of the positions the loop will still visit holds the
handle, the loop terminates without touching the slice. -/
theorem unregLoop_no_match (ev : Handle) :
    ∀ (k : Nat) (B : List Handle) (n i : Nat),
      (∀ m, i ≤ m → m < i + k → B.getD m 0 ≠ ev) →
      unregLoop ev k B n i = some (B, n) := by
  intro k
  induction k with
  | zero => intro B n i _; rfl
  | succ k ih =>
    intro B n i h
    unfold unregLoop
    rw [if_neg (h i le_rfl (by omega))]
    exact ih B n (i + 1) (fun m hm1 hm2 => h m (by omega) (by omega))

/-- Advancing the loop over positions that do not hold the handle. -/
theorem unregLoop_skip (ev : Handle) :
    ∀ (j k : Nat) (B : List Handle) (n i : Nat), j ≤ k →
      (∀ m, m < j → B.getD (i + m) 0 ≠ ev) →
      unregLoop ev k B n i = unregLoop ev (k - j) B n (i + j) := by
  intro j
  induction j with
  | zero => intro k B n i _ _; rfl
  | succ j ih =>
    intro k B n i hjk h
    obtain ⟨k', rfl⟩ : ∃ k', k = k' + 1 := ⟨k - 1, by omega⟩
    have hstep : unregLoop ev (k' + 1) B n i = unregLoop ev k' B n (i + 1) := by
      conv_lhs => unfold unregLoop
      rw [if_neg (by simpa using h 0 (by omega))]
    rw [hstep, ih k' B n (i + 1) (by omega)
      (fun m hm => by
        have h2 := h (m + 1) (by omega)
        have he : i + (m + 1) = i + 1 + m := by omega
        rw [he] at h2
        exact h2)]
    congr 1
    · omega
    · omega

/-- Effect of the in-place removal on a list holding the handle once,
at full slice length. -/
theorem goRemoveAt_single (ev : Handle) (xs ys : List Handle) :
    goRemoveAt (xs ++ ev :: ys) xs.length (xs.length + 1 + ys.length) =
      xs ++ ys ++ (ev :: ys).drop ys.length := by
  unfold goRemoveAt
  have h1 : (xs ++ ev :: ys).take xs.length = xs := List.take_left xs (ev :: ys)
  have h2 : (xs ++ ev :: ys).drop (xs.length + 1) = ys := by
    have hsplit : xs ++ ev :: ys = (xs ++ [ev]) ++ ys := by simp
    rw [hsplit]
    exact List.drop_left' (by simp)
  have h3 : xs.length + 1 + ys.length - 1 - xs.length = ys.length := by omega
  have h4 : (xs ++ ev :: ys).drop (xs.length + 1 + ys.length - 1) =
      (ev :: ys).drop ys.length := by
    have he : xs.length + 1 + ys.length - 1 = xs.length + ys.length := by omega
    rw [he, ← List.drop_drop, List.drop_left]
  rw [h1, h2, h3, h4, List.take_length]

/-- The element the loop reads at the match position. -/
theorem getD_match_point (ev : Handle) (xs ys : List Handle) :
    (xs ++ ev :: ys).getD xs.length 0 = ev := by
  rw [List.getD_append_right _ _ _ _ le_rfl, Nat.sub_self]
  rfl

/-- After the single removal, no later position (live or dead) holds
the handle. -/
theorem no_match_after_removal (ev : Handle) (xs ys : List Handle) (hy : ev ∉ ys) :
    ∀ m, xs.length + 1 ≤ m → m < xs.length + 1 + ys.length →
      (xs ++ ys ++ (ev :: ys).drop ys.length).getD m 0 ≠ ev := by
  intro m hm1 hm2
  by_cases hlt : m < xs.length + ys.length
  · rw [List.getD_append _ _ _ _ (by simp; omega)]
    rw [List.getD_append_right _ _ _ _ (by omega)]
    have hin : ys.getD (m - xs.length) 0 ∈ ys := by
      rw [List.getD_eq_getElem _ _ (by omega)]
      exact List.getElem_mem _
    exact fun he => hy (he ▸ hin)
  · have hm : m = xs.length + ys.length := by omega
    have hys : 1 ≤ ys.length := by omega
    rw [List.getD_append_right _ _ _ _ (by simp; omega)]
    have htail : (ev :: ys).drop ys.length = ys.drop (ys.length - 1) := by
      obtain ⟨y, ys', rfl⟩ : ∃ y ys', ys = y :: ys' := by
        cases ys with
        | nil => simp at hys
        | cons y ys' => exact ⟨y, ys', rfl⟩
      simp
    have hidx : m - (xs ++ ys).length = 0 := by simp; omega
    rw [hidx, htail]
    have hne : ys.drop (ys.length - 1) ≠ [] := by
      intro hnil
      have := congrArg List.length hnil
      simp at this
      omega
    obtain ⟨t, ts, hts⟩ : ∃ t ts, ys.drop (ys.length - 1) = t :: ts := by
      cases hd : ys.drop (ys.length - 1) with
      | nil => exact absurd hd hne
      | cons t ts => exact ⟨t, ts, rfl⟩
    rw [hts]
    have hin : t ∈ ys := List.drop_subset _ ys (hts ▸ List.mem_cons_self t ts)
    exact fun he => hy (he ▸ hin)

/-- Full run of the removal loop on a list holding the handle exactly
once: the occurrence is removed, the live length drops by one, no panic
occurs, and the live prefix of the backing array is the list without
the occurrence. -/
theorem unregLoop_single (ev : Handle) (xs ys : List Handle)
    (hx : ev ∉ xs) (hy : ev ∉ ys) :
    unregLoop ev (xs.length + 1 + ys.length) (xs ++ ev :: ys)
        (xs.length + 1 + ys.length) 0 =
      some (xs ++ ys ++ (ev :: ys).drop ys.length, xs.length + ys.length) := by
  have hskip := unregLoop_skip ev xs.length (xs.length + 1 + ys.length)
    (xs ++ ev :: ys) (xs.length + 1 + ys.length) 0 (by omega)
    (fun m hm => by
      rw [Nat.zero_add, List.getD_append _ _ _ _ (by omega)]
      have hin : xs.getD m 0 ∈ xs := by
        rw [List.getD_eq_getElem _ _ (by omega)]
        exact List.getElem_mem _
      exact fun he => hx (he ▸ hin))
  rw [hskip]
  have hk : xs.length + 1 + ys.length - xs.length = ys.length + 1 := by omega
  rw [hk, Nat.zero_add]
  unfold unregLoop
  rw [if_pos (getD_match_point ev xs ys), if_pos (by omega)]
  rw [goRemoveAt_single ev xs ys]
  have hn : xs.length + 1 + ys.length - 1 = xs.length + ys.length := by omega
  rw [hn]
  exact unregLoop_no_match ev ys.length _ (xs.length + ys.length) (xs.length + 1)
    (fun m hm1 hm2 => no_match_after_removal ev xs ys hy m hm1 (by omega))

/-- The loop never changes the backing length and never grows the live
length. -/
theorem unregLoop_shape (ev : Handle) :
    ∀ (k : Nat) (B : List Handle) (n i : Nat) (B' : List Handle) (n' : Nat),
      n ≤ B.length → unregLoop ev k B n i = some (B', n') →
      B'.length = B.length ∧ n' ≤ n := by
  intro k
  induction k with
  | zero =>
    intro B n i B' n' hn h
    simp only [unregLoop, Option.some.injEq, Prod.mk.injEq] at h
    exact ⟨h.1 ▸ rfl, h.2 ▸ le_rfl⟩
  | succ k ih =>
    intro B n i B' n' hn h
    unfold unregLoop at h
    by_cases hev : B.getD i 0 = ev
    · rw [if_pos hev] at h
      by_cases hi : i < n
      · rw [if_pos hi] at h
        have hrem : (goRemoveAt B i n).length = B.length := by
          unfold goRemoveAt
          simp [List.length_take, List.length_drop]
          omega
        obtain ⟨g1, g2⟩ := ih (goRemoveAt B i n) (n - 1) (i + 1) B' n'
          (by omega) h
        exact ⟨hrem ▸ g1, by omega⟩
      · rw [if_neg hi] at h
        cases h
    · rw [if_neg hev] at h
      exact ih B n (i + 1) B' n' hn h

end ZkClient

namespace ZkClient

/-- Reduction of `unregisterEvent` given the outcome of its loop. -/
theorem unregisterEvent_run (reg : Registry) (p : String) (h : Handle)
    (l : List Handle) (B' : List Handle) (n' : Nat) (hp : p ≠ "")
    (hl : regLookup reg p = some l)
    (hloop : unregLoop h l.length l l.length 0 = some (B', n')) :
    unregisterEvent reg p h =
      (if n' = 0 then regErase reg p else regSet reg p (B'.take n'), false) := by
  simp only [unregisterEvent, hp, hl, hloop, if_neg hp]
  by_cases hn : n' = 0 <;> simp [hn]

end ZkClient

namespace ZkClient

/-- C8 (amended): when the handle occurs at most once in the path's
handle list, `unregisterEvent(path, handle)` removes that (first and
only) exact identity match, deletes the map entry if the list becomes
empty, leaves every other path's entry untouched, and does not panic;
the handle is then no longer in the path's list, so a subsequent
node-changed dispatch at that path no longer notifies it (through that
path's entry).  The operation is a no-op on unknown paths.  When the
handle occurs several times the original claim fails: the loop's
in-place slice mutation can leave a duplicate behind or panic (see the
counterexample). -/
theorem unregister_removes_single (reg : Registry) (p : String) (h : Handle)
    (l : List Handle) (hp : p ≠ "") (hnd : (reg.map Prod.fst).Nodup)
    (hl : regLookup reg p = some l) (hc : l.count h ≤ 1) :
    (unregisterEvent reg p h).2 = false ∧
    regLookup (unregisterEvent reg p h).1 p =
      (if l.erase h = [] then none else some (l.erase h)) ∧
    h ∉ ((regLookup (unregisterEvent reg p h).1 p).getD []) ∧
    (∀ q, q ≠ p → regLookup (unregisterEvent reg p h).1 q = regLookup reg q) ∧
    (∀ q, regLookup reg q = none → regLookup (unregisterEvent reg q h).1 q = none) ∧
    ((∀ pr ∈ reg, pr.1 ≠ p → h ∉ pr.2) →
      h ∉ nodeChangedNotified (unregisterEvent reg p h).1 p) := by
  have herased : h ∉ l.erase h := by
    have hcnt := List.count_erase_self h l
    have : (l.erase h).count h = 0 := by omega
    exact List.count_eq_zero.mp this
  have main : ∃ B' n', unregLoop h l.length l l.length 0 = some (B', n') ∧
      B'.take n' = l.erase h ∧ (n' = 0 ↔ l.erase h = []) := by
    by_cases hmem : h ∈ l
    · obtain ⟨xs, ys, rfl⟩ := List.append_of_mem hmem
      have hcxy : xs.count h = 0 ∧ ys.count h = 0 := by
        simp [List.count_append, List.count_cons] at hc
        omega
      have hx : h ∉ xs := List.count_eq_zero.mp hcxy.1
      have hy : h ∉ ys := List.count_eq_zero.mp hcxy.2
      have hlen : (xs ++ h :: ys).length = xs.length + 1 + ys.length := by
        simp
        omega
      have herl : (xs ++ h :: ys).erase h = xs ++ ys := by
        rw [List.erase_append_right _ hx, List.erase_cons_head]
      refine ⟨xs ++ ys ++ (h :: ys).drop ys.length, xs.length + ys.length, ?_, ?_, ?_⟩
      · rw [hlen]
        exact unregLoop_single h xs ys hx hy
      · rw [herl]
        exact List.take_left' (by simp)
      · rw [herl, ← List.length_append, List.length_eq_zero]
    · have hloop := unregLoop_no_match h l.length l l.length 0
        (fun m hm1 hm2 => by
          have hin : l.getD m 0 ∈ l := by
            rw [List.getD_eq_getElem _ _ (by omega)]
            exact List.getElem_mem _
          exact fun he => hmem (he ▸ hin))
      refine ⟨l, l.length, hloop, ?_, ?_⟩
      · rw [List.take_length, List.erase_of_not_mem hmem]
      · rw [List.erase_of_not_mem hmem, List.length_eq_zero]
  obtain ⟨B', n', hloop, htake, hiff⟩ := main
  have hrun := unregisterEvent_run reg p h l B' n' hp hl hloop
  have hlook : regLookup (unregisterEvent reg p h).1 p =
      (if l.erase h = [] then none else some (l.erase h)) := by
    rw [hrun]
    by_cases hn : n' = 0
    · rw [if_pos (hiff.mp hn)]
      simp only [if_pos hn]
      exact regLookup_regErase_self reg p hnd
    · rw [if_neg (fun he => hn (hiff.mpr he))]
      simp only [if_neg hn]
      rw [regLookup_regSet_self, htake]
  refine ⟨by rw [hrun], hlook, ?_, ?_, ?_, ?_⟩
  · rw [hlook]
    by_cases he : l.erase h = []
    · simp [he]
    · simp [he, herased]
  · intro q hq
    rw [hrun]
    by_cases hn : n' = 0
    · simp only [if_pos hn]
      exact regLookup_regErase_ne reg p q hq
    · simp only [if_neg hn]
      exact regLookup_regSet_ne reg p q _ hq
  · intro q hq
    by_cases hqe : q = ""
    · subst hqe
      simpa [unregisterEvent] using hq
    · simp [unregisterEvent, hqe, hq]
  · intro hothers hmem
    rw [mem_nodeChangedNotified] at hmem
    obtain ⟨pr, hpr, hps, hin⟩ := hmem
    rw [hrun] at hpr
    by_cases hq : pr.1 = p
    · by_cases hn : n' = 0
      · simp only [if_pos hn] at hpr
        exact mem_regErase_key reg p pr hnd hpr hq
      · simp only [if_neg hn] at hpr
        have hpr2 := mem_regSet_key reg p (B'.take n') pr hnd hpr hq
        rw [hpr2] at hin
        rw [htake] at hin
        exact herased hin
    · have hpreg : pr ∈ reg := by
        by_cases hn : n' = 0
        · simp only [if_pos hn] at hpr
          exact mem_regErase reg p pr hpr
        · simp only [if_neg hn] at hpr
          rcases mem_regSet reg p (B'.take n') pr hpr with h1 | h1
          · exact absurd (by rw [h1]) hq
          · exact h1
      exact hothers pr hpreg hq hin

theorem unregister_removes_single_witness :
    (unregisterEvent [("/a", [1, 2])] "/a" 2).2 = false ∧
    regLookup (unregisterEvent [("/a", [1, 2])] "/a" 2).1 "/a" = some [1] ∧
    (2 : Handle) ∉
      ((regLookup (unregisterEvent [("/a", [1, 2])] "/a" 2).1 "/a").getD []) := by
  have h := unregister_removes_single [("/a", [1, 2])] "/a" 2 [1, 2]
    (by decide) (by decide) (by decide) (by decide)
  exact ⟨h.1, by rw [h.2.1]; decide, h.2.2.1⟩

/-- C8 counterexample: with the handle registered twice, the loop's
in-place mutation of the slice it is ranging over misbehaves.  On
`[h, h, x]` one duplicate survives: the handle is still in the path's
list after `unregisterEvent`, and a subsequent dispatch at the path
still notifies it, contradicting the claim.  On `[h, h]` the loop even
panics (slice bounds out of range), leaving the map unchanged. -/
theorem unregister_duplicate_counterexample :
    unregisterEvent [("/a", [1, 1, 2])] "/a" 1 = ([("/a", [1, 2])], false) ∧
    (1 : Handle) ∈ ((regLookup (unregisterEvent [("/a", [1, 1, 2])] "/a" 1).1 "/a").getD []) ∧
    (1 : Handle) ∈ nodeChangedNotified (unregisterEvent [("/a", [1, 1, 2])] "/a" 1).1 "/a" ∧
    unregisterEvent [("/a", [1, 1])] "/a" 1 = ([("/a", [1, 1])], true) := by
  exact ⟨by decide, by decide, by decide, by decide⟩

end ZkClient

namespace ZkClient

/-- Proof that `registerEvent` keeps every stored handle list non-empty. -/
theorem registerEvent_good (reg : Registry) (p : String) (h : Handle)
    (hg : GoodReg reg) : GoodReg (registerEvent reg p h) := by
  unfold registerEvent
  by_cases hguard : p = "" ∨ h = 0
  · rw [if_pos hguard]
    exact hg
  · rw [if_neg hguard]
    intro pr hpr
    rcases mem_regSet reg p _ pr hpr with h1 | h1
    · rw [h1]
      simp
    · exact hg pr h1

/-- Proof that `unregisterEvent` keeps every stored handle list non-empty: it
deletes the entry instead of storing an empty list, and a panicking run
leaves the map untouched. -/
theorem unregisterEvent_good (reg : Registry) (p : String) (h : Handle)
    (hg : GoodReg reg) : GoodReg (unregisterEvent reg p h).1 := by
  unfold unregisterEvent
  by_cases hpe : p = ""
  · rw [if_pos hpe]
    exact hg
  · rw [if_neg hpe]
    rcases hl : regLookup reg p with _ | a
    · exact hg
    · rcases hloop : unregLoop h a.length a a.length 0 with _ | ⟨B', n'⟩
      · simp only [hloop]
        exact hg
      · obtain ⟨hblen, hn'⟩ := unregLoop_shape h a.length a a.length 0 B' n' le_rfl hloop
        by_cases hn : n' = 0
        · simp only [hloop, hn, if_pos rfl]
          intro pr hpr
          exact hg pr (mem_regErase reg p pr hpr)
        · simp only [hloop, if_neg hn]
          intro pr hpr
          rcases mem_regSet reg p _ pr hpr with h1 | h1
          · rw [h1]
            have hlen : (List.take n' B').length = n' := by
              rw [List.length_take, hblen]
              omega
            intro hnil
            dsimp only at hnil
            rw [hnil] at hlen
            exact hn (by simpa using hlen.symm)
          · exact hg pr h1

/-- C9: starting from the empty registry, any sequence of
`registerEvent`, `unregisterEvent` and node-changed dispatches (which
never write the map) maintains the invariant that no path is mapped to
an empty handle list. -/
theorem registry_never_empty_list (ops : List RegOp) :
    GoodReg (ops.foldl regStep []) := by
  have hbase : GoodReg ([] : Registry) := by
    intro pr hpr
    cases hpr
  generalize hreg : ([] : Registry) = reg at hbase ⊢
  clear hreg
  induction ops generalizing reg with
  | nil => exact hbase
  | cons op rest ih =>
    refine ih (regStep reg op) ?_
    cases op with
    | register p h => exact registerEvent_good reg p h hbase
    | unregister p h => exact unregisterEvent_good reg p h hbase
    | nodeChanged p => exact hbase

end ZkClient
